import Mathlib

/-!
Shallow embedding of the fixed-capacity lock-free object pool
`net::MemoryPool` (src/net/src/memory_pool.h) and proofs of its
specified properties.

The embedding is sequential: the single compare-and-set in `Allocate`
always succeeds, matching any execution in which operations do not
interleave.  Raw memory is made explicit: the pool state carries ghost
views of the page header bytes (`hdr`) and of the constructed objects
(`obj`), operations report raw-allocator traffic as an event trace, and
the raw allocator itself is an oracle mapping the index of each
allocation call to the address it returns (`none` models a null
return, as from an exhausted `malloc`/`aligned_alloc`).
-/

namespace MemPool


/-- Compile-time data of the C++ template parameter `T`:
its `sizeof` and `alignof`. -/
structure TypeInfo where
  size : Nat
  align : Nat
deriving DecidableEq

/-- Size of the page head (`pageOffset_ = sizeof(uint8_t)`). -/
def pageOffset_ : Nat := 1

/-- Sentinel header byte for overflow pages (`extendFlag_ = 0xFF`). -/
def extendFlag_ : Nat := 0xFF

/-- Raw-allocator traffic produced by one pool operation. -/
inductive Event where
  | mallocEv (size : Nat) (addr : Nat)
  | alignedAllocEv (align size : Nat) (addr : Nat)
  | freeEv (addr : Nat)
  | destructEv (addr : Nat)
deriving DecidableEq

/-- State of one `net::MemoryPool` instance.  `pageSize_`, `bits_` and
`pages_` are the C++ data members (each `pages_[i]` holds the payload
address, one byte past the page head, as in the source).  `hdr`, `obj`
and `nAllocs` are the ghost memory view: the header byte stored at a
raw address, the constructed object living at a payload address, and
the number of raw-allocator calls made so far. -/
structure MemoryPool (V : Type) where
  pageSize_ : Nat
  bits_ : Nat
  pages_ : Fin 64 → Option Nat
  hdr : Nat → Option Nat
  obj : Nat → Option V
  nAllocs : Nat

/-- The `MemoryPool(pageSize)` constructor: empty bitmap, 64 null slots. -/
def mkPool (V : Type) (pageSize : Nat) : MemoryPool V :=
  { pageSize_ := pageSize, bits_ := 0, pages_ := fun _ => none,
    hdr := fun _ => none, obj := fun _ => none, nAllocs := 0 }

/-- The scan loop of `Allocate` over bit positions 0..63: first index
whose occupancy bit is clear (sequentially, the compare-and-set
succeeds at the first clear bit). -/
def scanBits (bits : Nat) : Option (Fin 64) :=
  (List.finRange 64).find? (fun i => ! bits.testBit i.val)

/-- The successful compare-and-set `bits_ | (1 << i)`. -/
def setBit (bits i : Nat) : Nat := bits ||| (1 <<< i)

/-- The atomic clear `bits_ & ~(1 << i)`, with `~` the 64-bit complement. -/
def clearBit (bits i : Nat) : Nat := bits &&& ((2 ^ 64 - 1) ^^^ (1 <<< i))

/-- Which branch an allocation was served from: a directory slot, or
the overflow path (`AllocateExtend`). -/
inductive Path where
  | slot (i : Fin 64)
  | overflow
deriving DecidableEq

/-- Result of `Allocate`: the returned pointer, or the undefined
behaviour of stamping the header through a null raw-allocation result. -/
inductive AllocOutcome where
  | ok (ptr : Nat)
  | nullDeref
deriving DecidableEq

/-- Full description of one `Allocate` call. -/
structure AllocResult (V : Type) where
  path : Path
  out : AllocOutcome
  pool : MemoryPool V
  evs : List Event

/-- The private overflow path `AllocateExtend<T>(args...)`:
`aligned_alloc(alignof(T), sizeof(T) + pageOffset_)`, stamp the header
byte with `extendFlag_`, placement-construct `T` past the header. -/
def AllocateExtend {Args V : Type} (T : TypeInfo) (ctor : Args → V) (args : Args)
    (oracle : Nat → Option Nat) (w : MemoryPool V) : AllocResult V :=
  match oracle w.nAllocs with
  | none =>
      { path := .overflow, out := .nullDeref,
        pool := { w with nAllocs := w.nAllocs + 1 },
        evs := [.alignedAllocEv T.align (T.size + pageOffset_) 0] }
  | some a =>
      { path := .overflow, out := .ok (a + 1),
        pool := { w with nAllocs := w.nAllocs + 1,
                         hdr := Function.update w.hdr a (some extendFlag_),
                         obj := Function.update w.obj (a + 1) (some (ctor args)) },
        evs := [.alignedAllocEv T.align (T.size + pageOffset_) a] }

/-- `Allocate<T>(args...)`: oversized objects go to the overflow path;
otherwise scan the bitmap, claim the first clear bit, materialize the
page on first use (`malloc(pageSize_ + pageOffset_)`, header byte `i`,
record the payload address), placement-construct `T` at the payload;
if all 64 bits are busy, fall through to the overflow path. -/
def Allocate {Args V : Type} (T : TypeInfo) (ctor : Args → V) (args : Args)
    (oracle : Nat → Option Nat) (w : MemoryPool V) : AllocResult V :=
  if w.pageSize_ < T.size then
    AllocateExtend T ctor args oracle w
  else
    match scanBits w.bits_ with
    | none => AllocateExtend T ctor args oracle w
    | some i =>
        let w1 : MemoryPool V := { w with bits_ := setBit w.bits_ i.val }
        match w1.pages_ i with
        | some p =>
            { path := .slot i, out := .ok p,
              pool := { w1 with obj := Function.update w1.obj p (some (ctor args)) },
              evs := [] }
        | none =>
            match oracle w1.nAllocs with
            | none =>
                { path := .slot i, out := .nullDeref,
                  pool := { w1 with nAllocs := w1.nAllocs + 1 },
                  evs := [.mallocEv (w.pageSize_ + pageOffset_) 0] }
            | some a =>
                { path := .slot i, out := .ok (a + 1),
                  pool := { w1 with nAllocs := w1.nAllocs + 1,
                                    hdr := Function.update w1.hdr a (some i.val),
                                    pages_ := Function.update w1.pages_ i (some (a + 1)),
                                    obj := Function.update w1.obj (a + 1) (some (ctor args)) },
                  evs := [.mallocEv (w.pageSize_ + pageOffset_) a] }

/-- Result of `Deallocate`: `ub` marks a pointer whose preceding header
byte was never written by this pool (caller contract violation). -/
inductive DeallocOutcome where
  | ok
  | ub
deriving DecidableEq

/-- Full description of one `Deallocate` call. -/
structure DeallocResult (V : Type) where
  out : DeallocOutcome
  pool : MemoryPool V
  evs : List Event

/-- `Deallocate<T>(ptr)`: read the header byte at `ptr - 1`, run the
destructor, then either `free` the raw page (header `extendFlag_`) or
atomically clear the occupancy bit named by the header byte. -/
def Deallocate {V : Type} (w : MemoryPool V) (ptr : Nat) : DeallocResult V :=
  match w.hdr (ptr - 1) with
  | none => { out := .ub, pool := w, evs := [] }
  | some b =>
      let w1 : MemoryPool V := { w with obj := Function.update w.obj ptr none }
      if b = extendFlag_ then
        { out := .ok,
          pool := { w1 with hdr := Function.update w1.hdr (ptr - 1) none },
          evs := [.destructEv ptr, .freeEv (ptr - 1)] }
      else
        { out := .ok, pool := { w1 with bits_ := clearBit w1.bits_ b },
          evs := [.destructEv ptr] }

/-- The destructor `~MemoryPool()`: for every materialized slot, free
the raw page (`free(payload - 1)`); no object destructor is invoked. -/
def teardown {V : Type} (w : MemoryPool V) : List Event :=
  (List.finRange 64).filterMap
    (fun i => (w.pages_ i).map (fun p => Event.freeEv (p - 1)))

/-- One client operation on the pool (the constructed value of an
allocation is supplied directly). -/
inductive Op (V : Type) where
  | alloc (T : TypeInfo) (v : V)
  | dealloc (ptr : Nat)

/-- Caller contract of `Deallocate`: the pointer is currently a live
allocation of this pool — the payload of some slot, or an overflow
allocation, holding a constructed object. -/
def ValidPtr {V : Type} (w : MemoryPool V) (ptr : Nat) : Prop :=
  (w.obj ptr).isSome = true ∧
    ((∃ i : Fin 64, w.pages_ i = some ptr) ∨ w.hdr (ptr - 1) = some extendFlag_)

instance {V : Type} (w : MemoryPool V) (ptr : Nat) : Decidable (ValidPtr w ptr) := by
  unfold ValidPtr; infer_instance

/-- Small-step semantics of client operations; `none` marks undefined
behaviour (a null-dereferencing allocation, or a contract-violating
deallocation). -/
def step {V : Type} (oracle : Nat → Option Nat) (w : MemoryPool V) :
    Op V → Option (MemoryPool V)
  | .alloc T v =>
      match (Allocate T id v oracle w).out with
      | .ok _ => some (Allocate T id v oracle w).pool
      | .nullDeref => none
  | .dealloc ptr =>
      if ValidPtr w ptr then some (Deallocate w ptr).pool else none

/-- Run a sequence of client operations. -/
def run {V : Type} (oracle : Nat → Option Nat) (w : MemoryPool V) :
    List (Op V) → Option (MemoryPool V)
  | [] => some w
  | op :: ops =>
      match step oracle w op with
      | none => none
      | some w1 => run oracle w1 ops

/-- Well-behaved raw allocator: successful results are non-null and
pairwise distinct (fresh) addresses. -/
def OracleFresh (oracle : Nat → Option Nat) : Prop :=
  (∀ k a, oracle k = some a → 1 ≤ a) ∧
    (∀ j k a, oracle j = some a → oracle k = some a → j = k)

/-! Helper lemmas about the bit operations. -/

theorem testBit_setBit (b i j : Nat) :
    (setBit b i).testBit j = (b.testBit j || decide (i = j)) := by
  simp [setBit, Nat.testBit_lor, Nat.one_shiftLeft, Nat.testBit_two_pow]

theorem testBit_clearBit (b i j : Nat) :
    (clearBit b i).testBit j = (b.testBit j && (decide (j < 64) ^^ decide (i = j))) := by
  unfold clearBit
  rw [Nat.testBit_land, Nat.testBit_xor, Nat.one_shiftLeft, Nat.testBit_two_pow,
      Nat.testBit_two_pow_sub_one]

theorem testBit_ge_64 {b : Nat} (hb : b < 2 ^ 64) {j : Nat} (hj : 64 ≤ j) :
    b.testBit j = false :=
  Nat.testBit_lt_two_pow
    (lt_of_lt_of_le hb (Nat.pow_le_pow_right (by norm_num) hj))

theorem testBit_setBit_self (b i : Nat) : (setBit b i).testBit i = true := by
  simp [testBit_setBit]

theorem testBit_setBit_ne (b : Nat) {i j : Nat} (hij : i ≠ j) :
    (setBit b i).testBit j = b.testBit j := by
  simp [testBit_setBit, hij]

theorem testBit_clearBit_self (b : Nat) {i : Nat} (hi : i < 64) :
    (clearBit b i).testBit i = false := by
  simp [testBit_clearBit, hi]

theorem testBit_clearBit_ne {b : Nat} (hb : b < 2 ^ 64) {i j : Nat} (hij : i ≠ j) :
    (clearBit b i).testBit j = b.testBit j := by
  rcases Nat.lt_or_ge j 64 with hj | hj
  · simp [testBit_clearBit, hj, hij]
  · rw [testBit_clearBit, testBit_ge_64 hb hj, Bool.false_and]

theorem setBit_lt {b : Nat} {i : Nat} (hb : b < 2 ^ 64) (hi : i < 64) :
    setBit b i < 2 ^ 64 := by
  unfold setBit
  refine Nat.or_lt_two_pow hb ?_
  rw [Nat.one_shiftLeft]
  exact Nat.pow_lt_pow_right (by norm_num) hi

theorem clearBit_lt (b i : Nat) (hb : b < 2 ^ 64) : clearBit b i < 2 ^ 64 := by
  unfold clearBit
  rw [Nat.land_comm]
  exact Nat.and_lt_two_pow _ hb

theorem clearBit_setBit {b i : Nat} (hb : b < 2 ^ 64) (hi : i < 64)
    (hbit : b.testBit i = false) : clearBit (setBit b i) i = b := by
  apply Nat.eq_of_testBit_eq
  intro j
  by_cases hij : i = j
  · subst hij
    rw [testBit_clearBit_self _ hi, hbit]
  · rw [testBit_clearBit_ne (setBit_lt hb hi) hij, testBit_setBit_ne _ hij]

/-! Helper lemmas about the bitmap scan. -/

theorem scanBits_none_iff (bits : Nat) :
    scanBits bits = none ↔ ∀ i : Fin 64, bits.testBit i.val = true := by
  unfold scanBits
  rw [List.find?_eq_none]
  constructor
  · intro h i
    have := h i (List.mem_finRange i)
    simpa using this
  · intro h x _
    simpa using h x

theorem scanBits_some_clear {bits : Nat} {i : Fin 64} (h : scanBits bits = some i) :
    bits.testBit i.val = false := by
  have := List.find?_some h
  simpa using this

/-! Branch-characterization lemmas for `Allocate`. -/

theorem AllocateExtend_path {Args V : Type} (T : TypeInfo) (ctor : Args → V)
    (args : Args) (oracle : Nat → Option Nat) (w : MemoryPool V) :
    (AllocateExtend T ctor args oracle w).path = Path.overflow := by
  unfold AllocateExtend
  split <;> rfl

theorem Allocate_path_slot {Args V : Type} {T : TypeInfo} {ctor : Args → V}
    {args : Args} {oracle : Nat → Option Nat} {w : MemoryPool V} {i : Fin 64}
    (hsz : ¬ w.pageSize_ < T.size) (hscan : scanBits w.bits_ = some i) :
    (Allocate T ctor args oracle w).path = Path.slot i := by
  unfold Allocate
  rw [if_neg hsz, hscan]
  dsimp only
  split
  · rfl
  · split <;> rfl

/-- C1: a call to `Allocate<T>` takes the overflow path iff `sizeof(T)`
strictly exceeds the pool's page capacity, or all 64 occupancy bits are
observed set during the full scan; in particular, when `sizeof(T)`
equals the page capacity exactly and at least one occupancy bit is
clear, the allocation is served from a slot, not from overflow. -/
theorem allocate_overflow_iff {Args V : Type} (T : TypeInfo) (ctor : Args → V)
    (args : Args) (oracle : Nat → Option Nat) (w : MemoryPool V) :
    ((Allocate T ctor args oracle w).path = Path.overflow ↔
      (w.pageSize_ < T.size ∨ ∀ i : Fin 64, w.bits_.testBit i.val = true)) ∧
    (T.size = w.pageSize_ → ∀ j : Fin 64, w.bits_.testBit j.val = false →
      ∃ i : Fin 64, (Allocate T ctor args oracle w).path = Path.slot i) := by
  have main : (Allocate T ctor args oracle w).path = Path.overflow ↔
      (w.pageSize_ < T.size ∨ ∀ i : Fin 64, w.bits_.testBit i.val = true) := by
    by_cases hsz : w.pageSize_ < T.size
    · unfold Allocate
      rw [if_pos hsz, AllocateExtend_path]
      exact iff_of_true rfl (Or.inl hsz)
    · cases hscan : scanBits w.bits_ with
      | none =>
          unfold Allocate
          rw [if_neg hsz, hscan]
          dsimp only
          rw [AllocateExtend_path]
          exact iff_of_true rfl (Or.inr ((scanBits_none_iff _).mp hscan))
      | some i =>
          rw [Allocate_path_slot hsz hscan]
          apply iff_of_false
          · intro h
            exact Path.noConfusion h
          · rintro (h | h)
            · exact hsz h
            · have hc := scanBits_some_clear hscan
              rw [h i] at hc
              exact Bool.noConfusion hc
  refine ⟨main, ?_⟩
  intro hsz j hj
  have hns : ¬ w.pageSize_ < T.size := by omega
  cases hscan : scanBits w.bits_ with
  | none =>
      have ht := (scanBits_none_iff _).mp hscan j
      rw [hj] at ht
      exact Bool.noConfusion ht
  | some i => exact ⟨i, Allocate_path_slot hns hscan⟩

/-- Raw allocator used by the concrete witnesses: call `k` returns the
non-null, pairwise distinct address `k + 1`. -/
def orW : Nat → Option Nat := fun k => some (k + 1)

/-- Concrete pool used by the witnesses: one 8-byte object allocated
from a fresh pool of page capacity 512 (it claims slot 0, materializes
its page at raw address 1, and returns payload address 2). -/
def poolW : MemoryPool Nat := (Allocate ⟨8, 8⟩ id 42 orW (mkPool Nat 512)).pool

/-- Witness for C1: a type of size exactly 512 on a fresh pool of page
capacity 512 with bit 0 clear is served from a slot. -/
theorem allocate_overflow_iff_witness :
    ∃ i : Fin 64,
      (Allocate ⟨512, 8⟩ (id : Nat → Nat) 0 orW (mkPool Nat 512)).path = Path.slot i :=
  (allocate_overflow_iff ⟨512, 8⟩ id 0 orW (mkPool Nat 512)).2 rfl
    ⟨0, by decide⟩ (by decide)

/-- C2: on a pointer carrying a header byte, `Deallocate` destroys the
object; with the sentinel header it frees the raw page; otherwise it
clears exactly occupancy bit `b` and frees nothing. -/
theorem deallocate_spec {V : Type} (w : MemoryPool V) (ptr : Nat) (b : Nat)
    (hh : w.hdr (ptr - 1) = some b) (hb : w.bits_ < 2 ^ 64) :
    (Deallocate w ptr).out = DeallocOutcome.ok ∧
    (Deallocate w ptr).pool.obj ptr = none ∧
    (b = extendFlag_ →
      (Deallocate w ptr).evs = [Event.destructEv ptr, Event.freeEv (ptr - 1)] ∧
      (Deallocate w ptr).pool.bits_ = w.bits_) ∧
    (b ≠ extendFlag_ → b < 64 →
      (Deallocate w ptr).evs = [Event.destructEv ptr] ∧
      (Deallocate w ptr).pool.bits_.testBit b = false ∧
      ∀ j, j ≠ b → (Deallocate w ptr).pool.bits_.testBit j = w.bits_.testBit j) := by
  unfold Deallocate
  rw [hh]
  dsimp only
  by_cases hbe : b = extendFlag_
  · rw [if_pos hbe]
    refine ⟨rfl, ?_, fun _ => ⟨rfl, rfl⟩, fun h => absurd hbe h⟩
    simp
  · rw [if_neg hbe]
    refine ⟨rfl, by simp, fun h => absurd h hbe, fun _ hb64 => ?_⟩
    exact ⟨rfl, testBit_clearBit_self _ hb64,
      fun j hj => testBit_clearBit_ne hb (Ne.symm hj)⟩

/-- Witness for C2: deallocating the slot-backed pointer 2 (header
byte 0) of the concrete pool succeeds, destroys the object and clears
bit 0. -/
theorem deallocate_spec_witness :
    (Deallocate poolW 2).out = DeallocOutcome.ok ∧
      (Deallocate poolW 2).pool.obj 2 = none ∧
      (Deallocate poolW 2).pool.bits_.testBit 0 = false :=
  ⟨(deallocate_spec poolW 2 0 rfl (by decide)).1,
   (deallocate_spec poolW 2 0 rfl (by decide)).2.1,
   ((deallocate_spec poolW 2 0 rfl (by decide)).2.2.2 (by decide) (by decide)).2.1⟩

/-- C10: `Deallocate` of a slot-backed pointer changes only occupancy
bit `b`: all other occupancy bits, the whole slots array and the page
capacity are unchanged; `Deallocate` of an overflow pointer leaves the
occupancy bitmap and the whole slots array unchanged. -/
theorem deallocate_frame {V : Type} (w : MemoryPool V) (ptr : Nat) (b : Nat)
    (hh : w.hdr (ptr - 1) = some b) (hb : w.bits_ < 2 ^ 64) :
    (Deallocate w ptr).pool.pageSize_ = w.pageSize_ ∧
    (Deallocate w ptr).pool.pages_ = w.pages_ ∧
    (b = extendFlag_ → (Deallocate w ptr).pool.bits_ = w.bits_) ∧
    (b ≠ extendFlag_ → b < 64 →
      (Deallocate w ptr).pool.bits_.testBit b = false ∧
      ∀ j, j ≠ b → (Deallocate w ptr).pool.bits_.testBit j = w.bits_.testBit j) := by
  unfold Deallocate
  rw [hh]
  dsimp only
  by_cases hbe : b = extendFlag_
  · rw [if_pos hbe]
    exact ⟨rfl, rfl, fun _ => rfl, fun h => absurd hbe h⟩
  · rw [if_neg hbe]
    exact ⟨rfl, rfl, fun h => absurd h hbe, fun _ hb64 =>
      ⟨testBit_clearBit_self _ hb64,
       fun j hj => testBit_clearBit_ne hb (Ne.symm hj)⟩⟩

/-- Witness for C10 at the concrete pool: the slots array and the page
capacity survive the deallocation of pointer 2. -/
theorem deallocate_frame_witness :
    (Deallocate poolW 2).pool.pageSize_ = poolW.pageSize_ ∧
      (Deallocate poolW 2).pool.pages_ = poolW.pages_ :=
  ⟨(deallocate_frame poolW 2 0 rfl (by decide)).1,
   (deallocate_frame poolW 2 0 rfl (by decide)).2.1⟩

/-- C8: the object returned by `Allocate<T>(args...)` is constructed
with exactly the forwarded constructor arguments, on both the pooled
slot path and the overflow path. -/
theorem ctor_forwarding {Args V : Type} (T : TypeInfo) (ctor : Args → V)
    (args : Args) (oracle : Nat → Option Nat) (w : MemoryPool V) (ptr : Nat)
    (h : (Allocate T ctor args oracle w).out = AllocOutcome.ok ptr) :
    (Allocate T ctor args oracle w).pool.obj ptr = some (ctor args) := by
  by_cases hsz : w.pageSize_ < T.size
  · unfold Allocate AllocateExtend at h ⊢
    rw [if_pos hsz] at h ⊢
    cases ho : oracle w.nAllocs with
    | none =>
        rw [ho] at h
        exact AllocOutcome.noConfusion h
    | some a =>
        rw [ho] at h
        dsimp only at h
        injection h with h
        subst h
        simp
  · cases hscan : scanBits w.bits_ with
    | none =>
        unfold Allocate AllocateExtend at h ⊢
        rw [if_neg hsz, hscan] at h ⊢
        dsimp only at h ⊢
        cases ho : oracle w.nAllocs with
        | none =>
            rw [ho] at h
            exact AllocOutcome.noConfusion h
        | some a =>
            rw [ho] at h
            dsimp only at h
            injection h with h
            subst h
            simp
    | some i =>
        unfold Allocate at h ⊢
        rw [if_neg hsz, hscan] at h ⊢
        dsimp only at h ⊢
        cases hp : w.pages_ i with
        | some p =>
            rw [hp] at h
            dsimp only at h
            injection h with h
            subst h
            simp
        | none =>
            rw [hp] at h
            dsimp only at h
            cases ho : oracle w.nAllocs with
            | none =>
                rw [ho] at h
                exact AllocOutcome.noConfusion h
            | some a =>
                rw [ho] at h
                dsimp only at h
                injection h with h
                subst h
                simp

/-- Sample two-field type used by the forwarding witness. -/
structure Point where
  x : Nat
  y : Nat
deriving DecidableEq

/-- Witness for C8: `Allocate<Point>(3, 4)` on a fresh pool yields an
object whose fields equal 3 and 4. -/
theorem ctor_forwarding_witness :
    (Allocate ⟨8, 4⟩ (fun q : Nat × Nat => Point.mk q.1 q.2) (3, 4) orW
      (mkPool Point 512)).pool.obj 2 = some (Point.mk 3 4) :=
  ctor_forwarding ⟨8, 4⟩ (fun q : Nat × Nat => Point.mk q.1 q.2) (3, 4) orW
    (mkPool Point 512) 2 rfl

/-- C7: `Allocate` never checks the raw allocator's result: the
outcome is the null-dereferencing header stamp exactly when the branch
taken must materialize memory and the allocator returns null; if every
raw allocation succeeds, the null dereference is unreachable. -/
theorem alloc_null_unchecked {Args V : Type} (T : TypeInfo) (ctor : Args → V)
    (args : Args) (oracle : Nat → Option Nat) (w : MemoryPool V) :
    ((Allocate T ctor args oracle w).out = AllocOutcome.nullDeref ↔
      (oracle w.nAllocs = none ∧
        ∀ i : Fin 64, (Allocate T ctor args oracle w).path = Path.slot i →
          w.pages_ i = none)) ∧
    ((∀ k, oracle k ≠ none) →
      (Allocate T ctor args oracle w).out ≠ AllocOutcome.nullDeref) := by
  have main : (Allocate T ctor args oracle w).out = AllocOutcome.nullDeref ↔
      (oracle w.nAllocs = none ∧
        ∀ i : Fin 64, (Allocate T ctor args oracle w).path = Path.slot i →
          w.pages_ i = none) := by
    by_cases hsz : w.pageSize_ < T.size
    · unfold Allocate AllocateExtend
      rw [if_pos hsz]
      cases ho : oracle w.nAllocs with
      | none =>
          dsimp only
          exact iff_of_true rfl ⟨rfl, fun i hpath => Path.noConfusion hpath⟩
      | some a =>
          dsimp only
          apply iff_of_false
          · exact fun h => AllocOutcome.noConfusion h
          · rintro ⟨hn, -⟩
            exact Option.noConfusion hn
    · cases hscan : scanBits w.bits_ with
      | none =>
          unfold Allocate AllocateExtend
          rw [if_neg hsz, hscan]
          dsimp only
          cases ho : oracle w.nAllocs with
          | none =>
              dsimp only
              exact iff_of_true rfl ⟨rfl, fun i hpath => Path.noConfusion hpath⟩
          | some a =>
              dsimp only
              apply iff_of_false
              · exact fun h => AllocOutcome.noConfusion h
              · rintro ⟨hn, -⟩
                exact Option.noConfusion hn
      | some i =>
          unfold Allocate
          rw [if_neg hsz, hscan]
          dsimp only
          cases hp : w.pages_ i with
          | some p =>
              dsimp only
              apply iff_of_false
              · exact fun h => AllocOutcome.noConfusion h
              · rintro ⟨-, himp⟩
                have := himp i rfl
                rw [hp] at this
                exact Option.noConfusion this
          | none =>
              dsimp only
              cases ho : oracle w.nAllocs with
              | none =>
                  dsimp only
                  refine iff_of_true rfl ⟨rfl, fun i' hpath => ?_⟩
                  injection hpath with hii
                  subst hii
                  exact hp
              | some a =>
                  dsimp only
                  apply iff_of_false
                  · exact fun h => AllocOutcome.noConfusion h
                  · rintro ⟨hn, -⟩
                    exact Option.noConfusion hn
  refine ⟨main, fun hsome hnd => ?_⟩
  exact hsome _ (main.mp hnd).1

/-- Witness for C7: with a never-failing raw allocator the null
dereference is unreachable on a concrete allocation. -/
theorem alloc_null_unchecked_witness :
    (Allocate ⟨8, 8⟩ (id : Nat → Nat) 0 orW (mkPool Nat 512)).out ≠
      AllocOutcome.nullDeref :=
  (alloc_null_unchecked ⟨8, 8⟩ id 0 orW (mkPool Nat 512)).2
    (fun k => by simp [orW])

/-- C9: a slot-path materialization records in the slots array exactly
the address one byte past the raw allocation, returns it, and that
address is misaligned for every alignment of at least 2 whenever the
raw base is aligned. -/
theorem slot_payload_offset {Args V : Type} (T : TypeInfo) (ctor : Args → V)
    (args : Args) (oracle : Nat → Option Nat) (w : MemoryPool V) (i : Fin 64)
    (a : Nat) (hsz : ¬ w.pageSize_ < T.size) (hscan : scanBits w.bits_ = some i)
    (hpg : w.pages_ i = none) (hor : oracle w.nAllocs = some a) :
    (Allocate T ctor args oracle w).evs
      = [Event.mallocEv (w.pageSize_ + pageOffset_) a] ∧
    (Allocate T ctor args oracle w).pool.pages_ i = some (a + 1) ∧
    (Allocate T ctor args oracle w).out = AllocOutcome.ok (a + 1) ∧
    (2 ≤ T.align → a % T.align = 0 → ¬ (a + 1) % T.align = 0) := by
  have harith : 2 ≤ T.align → a % T.align = 0 → ¬ (a + 1) % T.align = 0 := by
    intro hal ha hc
    have h1 : 1 % T.align = 1 := Nat.mod_eq_of_lt (by omega)
    have h2 : (a + 1) % T.align = 1 := by
      rw [Nat.add_mod, ha, h1, Nat.zero_add]
      exact h1
    rw [hc] at h2
    exact Nat.zero_ne_one h2
  unfold Allocate
  rw [if_neg hsz, hscan]
  dsimp only
  rw [hpg]
  dsimp only
  rw [hor]
  dsimp only
  exact ⟨rfl, by simp, rfl, harith⟩

/-- Raw allocator returning 8-byte-aligned fresh addresses. -/
def or8 : Nat → Option Nat := fun k => some (8 * (k + 1))

/-- Witness for C9: the first materialization with raw base 8 records
payload 9, which is not 8-byte aligned. -/
theorem slot_payload_offset_witness :
    (Allocate ⟨8, 8⟩ (id : Nat → Nat) 0 or8 (mkPool Nat 512)).pool.pages_ 0
      = some 9 ∧ ¬ (8 + 1) % 8 = 0 :=
  ⟨(slot_payload_offset ⟨8, 8⟩ id 0 or8 (mkPool Nat 512) 0 8 (by decide)
      (by decide) rfl rfl).2.1,
   (slot_payload_offset ⟨8, 8⟩ id 0 or8 (mkPool Nat 512) 0 8 (by decide)
      (by decide) rfl rfl).2.2.2 (by decide) (by decide)⟩

/-- Raw allocator returning 4-byte-aligned fresh addresses. -/
def or4 : Nat → Option Nat := fun k => some (4 * (k + 1))

/-- Counterexample to C6 as stated: for a type of size 8 and alignment
4 on a pool of page capacity 4, with the raw allocator returning the
4-byte-aligned base 4, the overflow path returns address 5, which does
not satisfy the alignment requirement alignof(T) = 4. -/
theorem overflow_align_counterexample :
    (Allocate ⟨8, 4⟩ (id : Nat → Nat) 0 or4 (mkPool Nat 4)).path = Path.overflow ∧
    (4 : Nat) % 4 = 0 ∧
    (Allocate ⟨8, 4⟩ (id : Nat → Nat) 0 or4 (mkPool Nat 4)).out
      = AllocOutcome.ok 5 ∧
    ¬ (5 : Nat) % 4 = 0 :=
  ⟨rfl, rfl, rfl, by decide⟩

/-- C6 (amended): the overflow path requests `sizeof(T) + 1` bytes at
alignment `alignof(T)`, stamps the first byte with the sentinel 0xFF
(distinct from every valid slot index 0..63), constructs `T`
immediately past that header byte, and returns the address one byte
past the alignof(T)-aligned base — which satisfies `T`'s alignment
requirement only when `alignof(T) = 1`. -/
theorem overflow_layout {Args V : Type} (T : TypeInfo) (ctor : Args → V)
    (args : Args) (oracle : Nat → Option Nat) (w : MemoryPool V) (a : Nat)
    (hsz : w.pageSize_ < T.size) (hor : oracle w.nAllocs = some a) :
    (Allocate T ctor args oracle w).path = Path.overflow ∧
    (Allocate T ctor args oracle w).evs
      = [Event.alignedAllocEv T.align (T.size + pageOffset_) a] ∧
    (Allocate T ctor args oracle w).pool.hdr a = some extendFlag_ ∧
    (∀ i : Fin 64, i.val ≠ extendFlag_) ∧
    (Allocate T ctor args oracle w).pool.obj (a + 1) = some (ctor args) ∧
    (Allocate T ctor args oracle w).out = AllocOutcome.ok (a + 1) ∧
    (T.align = 1 → (a + 1) % T.align = 0) ∧
    (2 ≤ T.align → a % T.align = 0 → ¬ (a + 1) % T.align = 0) := by
  have harith : 2 ≤ T.align → a % T.align = 0 → ¬ (a + 1) % T.align = 0 := by
    intro hal ha hc
    have h1 : 1 % T.align = 1 := Nat.mod_eq_of_lt (by omega)
    have h2 : (a + 1) % T.align = 1 := by
      rw [Nat.add_mod, ha, h1, Nat.zero_add]
      exact h1
    rw [hc] at h2
    exact Nat.zero_ne_one h2
  unfold Allocate AllocateExtend
  rw [if_pos hsz, hor]
  dsimp only
  refine ⟨rfl, rfl, by simp, ?_, by simp, rfl, ?_, harith⟩
  · intro i
    have := i.isLt
    unfold extendFlag_
    omega
  · intro h
    rw [h]
    exact Nat.mod_one _

/-- Witness for C6 (amended) at the concrete overflow allocation with
raw base 4: sentinel header stamped, payload constructed at 5. -/
theorem overflow_layout_witness :
    (Allocate ⟨8, 4⟩ (id : Nat → Nat) 0 or4 (mkPool Nat 4)).pool.hdr 4
      = some extendFlag_ ∧
    (Allocate ⟨8, 4⟩ (id : Nat → Nat) 0 or4 (mkPool Nat 4)).pool.obj 5 = some 0 :=
  ⟨(overflow_layout ⟨8, 4⟩ id 0 or4 (mkPool Nat 4) 4 (by decide) rfl).2.2.1,
   (overflow_layout ⟨8, 4⟩ id 0 or4 (mkPool Nat 4) 4 (by decide) rfl).2.2.2.2.1⟩

/-- Projections of an `Allocate` call that finds a clear bit whose page
is already materialized: the recorded payload is returned, no
raw-allocator event occurs. -/
theorem allocate_reuse_proj {Args V : Type} (T : TypeInfo) (ctor : Args → V)
    (args : Args) (oracle : Nat → Option Nat) (w : MemoryPool V) (i : Fin 64)
    (p : Nat) (hsz : ¬ w.pageSize_ < T.size) (hscan : scanBits w.bits_ = some i)
    (hpg : w.pages_ i = some p) :
    (Allocate T ctor args oracle w).out = AllocOutcome.ok p ∧
    (Allocate T ctor args oracle w).path = Path.slot i ∧
    (Allocate T ctor args oracle w).evs = [] := by
  unfold Allocate
  rw [if_neg hsz, hscan]
  dsimp only
  rw [hpg]
  exact ⟨rfl, rfl, rfl⟩

/-- C4: a first `Allocate` that claims slot `i` and materializes its
page, followed by `Deallocate` of the returned pointer and a second
`Allocate` of the same size class, returns the same payload address
and performs no new raw allocation. -/
theorem slot_reuse {Args V : Type} (T : TypeInfo) (ctor ctor' : Args → V)
    (args args' : Args) (oracle : Nat → Option Nat) (w0 : MemoryPool V)
    (i : Fin 64) (a : Nat)
    (hsz : ¬ w0.pageSize_ < T.size) (hscan : scanBits w0.bits_ = some i)
    (hpg : w0.pages_ i = none) (hor : oracle w0.nAllocs = some a)
    (hlt : w0.bits_ < 2 ^ 64) :
    (Allocate T ctor args oracle w0).out = AllocOutcome.ok (a + 1) ∧
    (Allocate T ctor args oracle w0).path = Path.slot i ∧
    (Allocate T ctor' args' oracle
        (Deallocate (Allocate T ctor args oracle w0).pool (a + 1)).pool).out
      = AllocOutcome.ok (a + 1) ∧
    (Allocate T ctor' args' oracle
        (Deallocate (Allocate T ctor args oracle w0).pool (a + 1)).pool).path
      = Path.slot i ∧
    (Allocate T ctor' args' oracle
        (Deallocate (Allocate T ctor args oracle w0).pool (a + 1)).pool).evs
      = [] := by
  have hbits : clearBit (setBit w0.bits_ i.val) i.val = w0.bits_ :=
    clearBit_setBit hlt i.isLt (scanBits_some_clear hscan)
  have hne : ¬ (i.val = extendFlag_) := by
    have := i.isLt
    unfold extendFlag_
    omega
  have e1 : Allocate T ctor args oracle w0 =
      { path := Path.slot i, out := AllocOutcome.ok (a + 1),
        pool := { pageSize_ := w0.pageSize_, bits_ := setBit w0.bits_ i.val,
                  pages_ := Function.update w0.pages_ i (some (a + 1)),
                  hdr := Function.update w0.hdr a (some i.val),
                  obj := Function.update w0.obj (a + 1) (some (ctor args)),
                  nAllocs := w0.nAllocs + 1 },
        evs := [Event.mallocEv (w0.pageSize_ + pageOffset_) a] } := by
    unfold Allocate
    rw [if_neg hsz, hscan]
    dsimp only
    rw [hpg]
    dsimp only
    rw [hor]
  have e2 : Deallocate (Allocate T ctor args oracle w0).pool (a + 1) =
      { out := DeallocOutcome.ok,
        pool := { pageSize_ := w0.pageSize_,
                  bits_ := clearBit (setBit w0.bits_ i.val) i.val,
                  pages_ := Function.update w0.pages_ i (some (a + 1)),
                  hdr := Function.update w0.hdr a (some i.val),
                  obj := Function.update
                           (Function.update w0.obj (a + 1) (some (ctor args)))
                           (a + 1) none,
                  nAllocs := w0.nAllocs + 1 },
        evs := [Event.destructEv (a + 1)] } := by
    rw [e1]
    unfold Deallocate
    dsimp only
    rw [Nat.add_sub_cancel, Function.update_same]
    dsimp only
    rw [if_neg hne]
  refine ⟨by rw [e1], by rw [e1], ?_⟩
  rw [e2]
  dsimp only
  exact allocate_reuse_proj T ctor' args' oracle _ i (a + 1) hsz
    (by dsimp only; rw [hbits]; exact hscan) (by simp)

/-- Witness for C4 on the concrete pool: allocate, deallocate pointer
2, allocate again — the pointer 2 comes back with no allocator event. -/
theorem slot_reuse_witness :
    (Allocate ⟨8, 8⟩ (id : Nat → Nat) 7 orW
        (Deallocate (Allocate ⟨8, 8⟩ (id : Nat → Nat) 42 orW
          (mkPool Nat 512)).pool 2).pool).out = AllocOutcome.ok 2 ∧
    (Allocate ⟨8, 8⟩ (id : Nat → Nat) 7 orW
        (Deallocate (Allocate ⟨8, 8⟩ (id : Nat → Nat) 42 orW
          (mkPool Nat 512)).pool 2).pool).evs = [] :=
  ⟨(slot_reuse ⟨8, 8⟩ id id 42 7 orW (mkPool Nat 512) 0 1 (by decide)
      (by decide) rfl rfl (by decide)).2.2.1,
   (slot_reuse ⟨8, 8⟩ id id 42 7 orW (mkPool Nat 512) 0 1 (by decide)
      (by decide) rfl rfl (by decide)).2.2.2.2⟩

/-- Length of the teardown trace: one entry per slot whose page is
materialized. -/
theorem teardown_length_aux (l : List (Fin 64)) (pg : Fin 64 → Option Nat) :
    (l.filterMap (fun i => (pg i).map (fun p => Event.freeEv (p - 1)))).length
      = (l.filter (fun i => (pg i).isSome)).length := by
  induction l with
  | nil => rfl
  | cons x xs ih =>
      cases hx : pg x <;>
        simp [List.filterMap_cons, List.filter_cons, hx, ih]

/-- `Allocate` never unmaterializes or moves a materialized page. -/
theorem Allocate_pages_mono {Args V : Type} (T : TypeInfo) (ctor : Args → V)
    (args : Args) (oracle : Nat → Option Nat) (w : MemoryPool V)
    (i : Fin 64) (p : Nat) (hp : w.pages_ i = some p) :
    (Allocate T ctor args oracle w).pool.pages_ i = some p := by
  unfold Allocate AllocateExtend
  by_cases hsz : w.pageSize_ < T.size
  · rw [if_pos hsz]
    cases ho : oracle w.nAllocs <;> exact hp
  · rw [if_neg hsz]
    cases hscan : scanBits w.bits_ with
    | none => cases ho : oracle w.nAllocs <;> exact hp
    | some j =>
        dsimp only
        cases hpj : w.pages_ j with
        | some q => exact hp
        | none =>
            cases ho : oracle w.nAllocs with
            | none => exact hp
            | some a =>
                dsimp only
                have hij : i ≠ j := by
                  intro h
                  rw [h, hpj] at hp
                  exact Option.noConfusion hp
                rw [Function.update_noteq hij]
                exact hp

/-- `Deallocate` never touches the slots array. -/
theorem Deallocate_pages_eq {V : Type} (w : MemoryPool V) (ptr : Nat) :
    (Deallocate w ptr).pool.pages_ = w.pages_ := by
  unfold Deallocate
  cases hh : w.hdr (ptr - 1) with
  | none => rfl
  | some b =>
      dsimp only
      by_cases hbe : b = extendFlag_
      · rw [if_pos hbe]
      · rw [if_neg hbe]

/-- Client operations preserve every materialized page entry. -/
theorem step_pages_mono {V : Type} (oracle : Nat → Option Nat)
    (w : MemoryPool V) (op : Op V) (w1 : MemoryPool V)
    (h : step oracle w op = some w1) (i : Fin 64) (p : Nat)
    (hp : w.pages_ i = some p) : w1.pages_ i = some p := by
  cases op with
  | alloc T v =>
      simp only [step] at h
      split at h
      · injection h with h
        subst h
        exact Allocate_pages_mono T id v oracle w i p hp
      · exact Option.noConfusion h
  | dealloc ptr =>
      simp only [step] at h
      split at h
      · injection h with h
        subst h
        rw [Deallocate_pages_eq]
        exact hp
      · exact Option.noConfusion h

/-- C5: pool teardown releases exactly one raw page per slot whose
page is materialized (the raw page start, one byte below the recorded
payload address), regardless of how many allocate/deallocate cycles
reused each slot (client operations never change a materialized
entry), and it invokes no object destructor. -/
theorem teardown_spec {V : Type} (oracle : Nat → Option Nat) (w : MemoryPool V) :
    (teardown w).length
      = ((List.finRange 64).filter (fun i => (w.pages_ i).isSome)).length ∧
    (∀ i : Fin 64, ∀ p, w.pages_ i = some p →
      Event.freeEv (p - 1) ∈ teardown w) ∧
    (∀ p, Event.destructEv p ∉ teardown w) ∧
    (∀ op w1, step oracle w op = some w1 →
      ∀ i : Fin 64, ∀ p, w.pages_ i = some p → w1.pages_ i = some p) := by
  refine ⟨teardown_length_aux _ _, ?_, ?_,
    fun op w1 h i p hp => step_pages_mono oracle w op w1 h i p hp⟩
  · intro i p hp
    unfold teardown
    rw [List.mem_filterMap]
    refine ⟨i, List.mem_finRange i, ?_⟩
    rw [hp]
    rfl
  · intro p hmem
    unfold teardown at hmem
    rw [List.mem_filterMap] at hmem
    obtain ⟨x, -, hx⟩ := hmem
    cases hpx : w.pages_ x with
    | none =>
        rw [hpx] at hx
        exact Option.noConfusion hx
    | some q =>
        rw [hpx] at hx
        injection hx with hx
        exact Event.noConfusion hx

/-- Witness for C5: tearing down the concrete one-page pool frees the
raw page at address 1 (one byte below payload 2). -/
theorem teardown_spec_witness : Event.freeEv 1 ∈ teardown poolW :=
  (teardown_spec orW poolW).2.1 0 2 rfl

/-- Inductive invariant of a pool state, relative to the raw-allocator
oracle: the occupancy bitmap fits in 64 bits and mirrors the live
objects; every materialized page carries its owner's slot index in its
header byte, sits at a non-null payload address, is owned by exactly
one slot, and every header byte and object lives in memory returned by
some earlier raw-allocator call. -/
structure Inv {V : Type} (oracle : Nat → Option Nat) (w : MemoryPool V) : Prop where
  bits_lt : w.bits_ < 2 ^ 64
  occ_iff : ∀ i : Fin 64, w.bits_.testBit i.val = true ↔
      ∃ p, w.pages_ i = some p ∧ (w.obj p).isSome = true
  pages_hdr : ∀ i : Fin 64, ∀ p, w.pages_ i = some p → w.hdr (p - 1) = some i.val
  pages_pos : ∀ i : Fin 64, ∀ p, w.pages_ i = some p → 1 ≤ p
  pages_inj : ∀ i j : Fin 64, ∀ p, w.pages_ i = some p → w.pages_ j = some p → i = j
  hdr_dom : ∀ a b, w.hdr a = some b → ∃ k, k < w.nAllocs ∧ oracle k = some a
  obj_dom : ∀ p v, w.obj p = some v →
      1 ≤ p ∧ ∃ k, k < w.nAllocs ∧ oracle k = some (p - 1)

/-- A freshly constructed pool satisfies the invariant. -/
theorem inv_mkPool {V : Type} (oracle : Nat → Option Nat) (ps : Nat) :
    Inv oracle (mkPool V ps) := by
  refine ⟨by positivity, ?_, ?_, ?_, ?_, ?_, ?_⟩ <;>
    simp [mkPool, Nat.zero_testBit]

/-- An address delivered by a fresh-oracle call is different from
every address delivered by an earlier call. -/
theorem fresh_ne {oracle : Nat → Option Nat} (hor : OracleFresh oracle)
    {n : Nat} {a : Nat} (ha : oracle n = some a) :
    ∀ a', (∃ k, k < n ∧ oracle k = some a') → a' ≠ a := by
  rintro a' ⟨k, hk, hka⟩ rfl
  have := hor.2 k n a' hka ha
  omega

/-- Payload addresses of materialized pages are disjoint from the
payload of a fresh raw allocation. -/
theorem pages_ne_fresh {V : Type} {oracle : Nat → Option Nat}
    {w : MemoryPool V} {a : Nat} (hor : OracleFresh oracle) (hI : Inv oracle w)
    (ha : oracle w.nAllocs = some a) :
    ∀ (j : Fin 64) q, w.pages_ j = some q → q ≠ a + 1 := by
  intro j q hq
  have h1 := hI.pages_pos j q hq
  have h2 := fresh_ne hor ha (q - 1) (hI.hdr_dom (q - 1) j.val (hI.pages_hdr j q hq))
  omega

/-- `AllocateExtend` preserves the invariant when the raw allocation
succeeds. -/
theorem inv_AllocateExtend {Args V : Type} (T : TypeInfo) (ctor : Args → V)
    (args : Args) {oracle : Nat → Option Nat} {w : MemoryPool V} {a : Nat}
    (hor : OracleFresh oracle) (hI : Inv oracle w)
    (ha : oracle w.nAllocs = some a) :
    Inv oracle (AllocateExtend T ctor args oracle w).pool := by
  have ha1 : 1 ≤ a := hor.1 _ _ ha
  have hobj : ∀ (j : Fin 64) p, w.pages_ j = some p →
      Function.update w.obj (a + 1) (some (ctor args)) p = w.obj p := by
    intro j p hp
    have := pages_ne_fresh hor hI ha j p hp
    exact Function.update_noteq this _ _
  have hhdrne : ∀ (j : Fin 64) p, w.pages_ j = some p → p - 1 ≠ a := by
    intro j p hp
    exact fresh_ne hor ha (p - 1) (hI.hdr_dom (p - 1) j.val (hI.pages_hdr j p hp))
  unfold AllocateExtend
  rw [ha]
  dsimp only
  refine ⟨hI.bits_lt, ?_, ?_, hI.pages_pos, hI.pages_inj, ?_, ?_⟩
  · intro j
    dsimp only
    rw [hI.occ_iff j]
    constructor
    · rintro ⟨p, hp, hs⟩
      refine ⟨p, hp, ?_⟩
      rw [hobj j p hp]
      exact hs
    · rintro ⟨p, hp, hs⟩
      rw [hobj j p hp] at hs
      exact ⟨p, hp, hs⟩
  · intro j p hp
    dsimp only at hp ⊢
    rw [Function.update_noteq (hhdrne j p hp)]
    exact hI.pages_hdr j p hp
  · intro x b hx
    dsimp only at hx ⊢
    by_cases hxa : x = a
    · exact ⟨w.nAllocs, by omega, hxa ▸ ha⟩
    · rw [Function.update_noteq hxa] at hx
      obtain ⟨k, hk, hka⟩ := hI.hdr_dom x b hx
      exact ⟨k, by omega, hka⟩
  · intro p v hp
    dsimp only at hp ⊢
    by_cases hpa : p = a + 1
    · subst hpa
      exact ⟨by omega, w.nAllocs, by omega, by rw [Nat.add_sub_cancel]; exact ha⟩
    · rw [Function.update_noteq hpa] at hp
      obtain ⟨h1, k, hk, hka⟩ := hI.obj_dom p v hp
      exact ⟨h1, k, by omega, hka⟩

/-- Claiming a slot whose page is already materialized preserves the
invariant. -/
theorem inv_slot_reuse {V : Type} {oracle : Nat → Option Nat}
    {w : MemoryPool V} {i : Fin 64} {p : Nat} (vnew : V)
    (hI : Inv oracle w) (hp : w.pages_ i = some p) :
    Inv oracle { w with bits_ := setBit w.bits_ i.val,
                        obj := Function.update w.obj p (some vnew) } := by
  refine ⟨setBit_lt hI.bits_lt i.isLt, ?_, hI.pages_hdr, hI.pages_pos,
    hI.pages_inj, hI.hdr_dom, ?_⟩
  · intro j
    dsimp only
    by_cases hij : j = i
    · subst hij
      refine iff_of_true (testBit_setBit_self _ _) ⟨p, hp, ?_⟩
      rw [Function.update_same]
      rfl
    · have hvij : j.val ≠ i.val := fun h => hij (Fin.ext h)
      rw [testBit_setBit_ne _ (Ne.symm hvij), hI.occ_iff j]
      constructor
      · rintro ⟨q, hq, hs⟩
        refine ⟨q, hq, ?_⟩
        rw [Function.update_noteq
          (fun hqp : q = p => hij (hI.pages_inj j i p (hqp ▸ hq) hp))]
        exact hs
      · rintro ⟨q, hq, hs⟩
        rw [Function.update_noteq
          (fun hqp : q = p => hij (hI.pages_inj j i p (hqp ▸ hq) hp))] at hs
        exact ⟨q, hq, hs⟩
  · intro q v hq
    dsimp only at hq ⊢
    by_cases hqp : q = p
    · subst hqp
      exact ⟨hI.pages_pos i q hp, hI.hdr_dom (q - 1) i.val (hI.pages_hdr i q hp)⟩
    · rw [Function.update_noteq hqp] at hq
      exact hI.obj_dom q v hq

/-- Claiming a slot and materializing its page preserves the invariant. -/
theorem inv_slot_new {V : Type} {oracle : Nat → Option Nat}
    {w : MemoryPool V} {i : Fin 64} {a : Nat} (vnew : V)
    (hor : OracleFresh oracle) (hI : Inv oracle w)
    (hpg : w.pages_ i = none) (ha : oracle w.nAllocs = some a) :
    Inv oracle { w with bits_ := setBit w.bits_ i.val,
                        nAllocs := w.nAllocs + 1,
                        hdr := Function.update w.hdr a (some i.val),
                        pages_ := Function.update w.pages_ i (some (a + 1)),
                        obj := Function.update w.obj (a + 1) (some vnew) } := by
  have ha1 : 1 ≤ a := hor.1 _ _ ha
  have hpne := pages_ne_fresh hor hI ha
  have hhdrne : ∀ (j : Fin 64) q, w.pages_ j = some q → q - 1 ≠ a := by
    intro j q hq
    exact fresh_ne hor ha (q - 1) (hI.hdr_dom (q - 1) j.val (hI.pages_hdr j q hq))
  refine ⟨setBit_lt hI.bits_lt i.isLt, ?_, ?_, ?_, ?_, ?_, ?_⟩
  · intro j
    dsimp only
    by_cases hij : j = i
    · subst hij
      refine iff_of_true (testBit_setBit_self _ _) ⟨a + 1, ?_, ?_⟩
      · rw [Function.update_same]
      · rw [Function.update_same]
        rfl
    · have hvij : j.val ≠ i.val := fun h => hij (Fin.ext h)
      rw [testBit_setBit_ne _ (Ne.symm hvij), hI.occ_iff j,
        Function.update_noteq hij]
      constructor
      · rintro ⟨q, hq, hs⟩
        refine ⟨q, hq, ?_⟩
        rw [Function.update_noteq (hpne j q hq)]
        exact hs
      · rintro ⟨q, hq, hs⟩
        rw [Function.update_noteq (hpne j q hq)] at hs
        exact ⟨q, hq, hs⟩
  · intro j q hq
    dsimp only at hq ⊢
    by_cases hij : j = i
    · subst hij
      rw [Function.update_same] at hq
      injection hq with hq
      subst hq
      rw [Nat.add_sub_cancel, Function.update_same]
    · rw [Function.update_noteq hij] at hq
      rw [Function.update_noteq (hhdrne j q hq)]
      exact hI.pages_hdr j q hq
  · intro j q hq
    dsimp only at hq
    by_cases hij : j = i
    · subst hij
      rw [Function.update_same] at hq
      injection hq with hq
      omega
    · rw [Function.update_noteq hij] at hq
      exact hI.pages_pos j q hq
  · intro j k q hjq hkq
    dsimp only at hjq hkq
    by_cases hji : j = i <;> by_cases hki : k = i
    · rw [hji, hki]
    · subst hji
      rw [Function.update_same] at hjq
      rw [Function.update_noteq hki] at hkq
      injection hjq with hjq
      exact absurd hjq.symm (hpne k q hkq)
    · subst hki
      rw [Function.update_same] at hkq
      rw [Function.update_noteq hji] at hjq
      injection hkq with hkq
      exact absurd hkq.symm (hpne j q hjq)
    · rw [Function.update_noteq hji] at hjq
      rw [Function.update_noteq hki] at hkq
      exact hI.pages_inj j k q hjq hkq
  · intro x b hx
    dsimp only at hx ⊢
    by_cases hxa : x = a
    · exact ⟨w.nAllocs, by omega, hxa ▸ ha⟩
    · rw [Function.update_noteq hxa] at hx
      obtain ⟨k, hk, hka⟩ := hI.hdr_dom x b hx
      exact ⟨k, by omega, hka⟩
  · intro p v hp
    dsimp only at hp ⊢
    by_cases hpa : p = a + 1
    · subst hpa
      exact ⟨by omega, w.nAllocs, by omega, by rw [Nat.add_sub_cancel]; exact ha⟩
    · rw [Function.update_noteq hpa] at hp
      obtain ⟨h1, k, hk, hka⟩ := hI.obj_dom p v hp
      exact ⟨h1, k, by omega, hka⟩

/-- `Deallocate` of a valid live pointer preserves the invariant. -/
theorem inv_Deallocate {V : Type} {oracle : Nat → Option Nat}
    {w : MemoryPool V} {ptr : Nat}
    (hI : Inv oracle w) (hv : ValidPtr w ptr) :
    Inv oracle (Deallocate w ptr).pool := by
  obtain ⟨hsome, hcase⟩ := hv
  obtain ⟨v0, hv0⟩ := Option.isSome_iff_exists.mp hsome
  have hptr1 : 1 ≤ ptr := (hI.obj_dom ptr v0 hv0).1
  unfold Deallocate
  cases hh : w.hdr (ptr - 1) with
  | none => exact hI
  | some b =>
      dsimp only
      by_cases hbe : b = extendFlag_
      · rw [if_pos hbe]
        subst hbe
        have hnoslot : ∀ (j : Fin 64) q, w.pages_ j = some q → q ≠ ptr := by
          intro j q hq hqp
          subst hqp
          have hj := hI.pages_hdr j q hq
          rw [hh] at hj
          injection hj with hj
          have := j.isLt
          unfold extendFlag_ at hj
          omega
        refine ⟨hI.bits_lt, ?_, ?_, hI.pages_pos, hI.pages_inj, ?_, ?_⟩
        · intro j
          dsimp only
          rw [hI.occ_iff j]
          constructor
          · rintro ⟨q, hq, hs⟩
            refine ⟨q, hq, ?_⟩
            rw [Function.update_noteq (hnoslot j q hq)]
            exact hs
          · rintro ⟨q, hq, hs⟩
            rw [Function.update_noteq (hnoslot j q hq)] at hs
            exact ⟨q, hq, hs⟩
        · intro j q hq
          dsimp only at hq ⊢
          have h1 := hI.pages_pos j q hq
          have hne : q - 1 ≠ ptr - 1 := by
            have := hnoslot j q hq
            omega
          rw [Function.update_noteq hne]
          exact hI.pages_hdr j q hq
        · intro x c hx
          dsimp only at hx ⊢
          by_cases hxp : x = ptr - 1
          · subst hxp
            rw [Function.update_same] at hx
            exact Option.noConfusion hx
          · rw [Function.update_noteq hxp] at hx
            exact hI.hdr_dom x c hx
        · intro p v hp
          dsimp only at hp ⊢
          by_cases hpp : p = ptr
          · subst hpp
            rw [Function.update_same] at hp
            exact Option.noConfusion hp
          · rw [Function.update_noteq hpp] at hp
            exact hI.obj_dom p v hp
      · rw [if_neg hbe]
        have hslot : ∃ j : Fin 64, w.pages_ j = some ptr := by
          rcases hcase with h | h
          · exact h
          · rw [hh] at h
            injection h with h
            exact absurd h hbe
        obtain ⟨is, his⟩ := hslot
        have hbi : b = is.val := by
          have h2 := hI.pages_hdr is ptr his
          rw [hh] at h2
          injection h2 with h2
        refine ⟨clearBit_lt _ _ hI.bits_lt, ?_, hI.pages_hdr, hI.pages_pos,
          hI.pages_inj, hI.hdr_dom, ?_⟩
        · intro j
          dsimp only
          by_cases hij : j = is
          · subst hij
            apply iff_of_false
            · intro hcontra
              rw [hbi, testBit_clearBit_self _ j.isLt] at hcontra
              exact Bool.noConfusion hcontra
            · rintro ⟨q, hq, hs⟩
              rw [his] at hq
              injection hq with hq
              subst hq
              rw [Function.update_same] at hs
              exact Bool.noConfusion hs
          · have hvij : b ≠ j.val := by
              rw [hbi]
              exact fun h => hij (Fin.ext h).symm
            rw [testBit_clearBit_ne hI.bits_lt hvij, hI.occ_iff j]
            constructor
            · rintro ⟨q, hq, hs⟩
              refine ⟨q, hq, ?_⟩
              rw [Function.update_noteq
                (fun h : q = ptr => hij (hI.pages_inj j is ptr (h ▸ hq) his))]
              exact hs
            · rintro ⟨q, hq, hs⟩
              rw [Function.update_noteq
                (fun h : q = ptr => hij (hI.pages_inj j is ptr (h ▸ hq) his))] at hs
              exact ⟨q, hq, hs⟩
        · intro p v hp
          dsimp only at hp ⊢
          by_cases hpp : p = ptr
          · subst hpp
            rw [Function.update_same] at hp
            exact Option.noConfusion hp
          · rw [Function.update_noteq hpp] at hp
            exact hI.obj_dom p v hp

/-- A successful `Allocate` preserves the invariant. -/
theorem inv_Allocate {Args V : Type} (T : TypeInfo) (ctor : Args → V)
    (args : Args) {oracle : Nat → Option Nat} {w : MemoryPool V}
    (hor : OracleFresh oracle) (hI : Inv oracle w)
    (hok : (Allocate T ctor args oracle w).out ≠ AllocOutcome.nullDeref) :
    Inv oracle (Allocate T ctor args oracle w).pool := by
  by_cases hsz : w.pageSize_ < T.size
  · unfold Allocate at hok ⊢
    rw [if_pos hsz] at hok ⊢
    cases ho : oracle w.nAllocs with
    | none =>
        exfalso
        apply hok
        unfold AllocateExtend
        rw [ho]
    | some a => exact inv_AllocateExtend T ctor args hor hI ho
  · cases hscan : scanBits w.bits_ with
    | none =>
        unfold Allocate at hok ⊢
        rw [if_neg hsz, hscan] at hok ⊢
        dsimp only at hok ⊢
        cases ho : oracle w.nAllocs with
        | none =>
            exfalso
            apply hok
            unfold AllocateExtend
            rw [ho]
        | some a => exact inv_AllocateExtend T ctor args hor hI ho
    | some i =>
        unfold Allocate at hok ⊢
        rw [if_neg hsz, hscan] at hok ⊢
        dsimp only at hok ⊢
        cases hp : w.pages_ i with
        | some p => exact inv_slot_reuse (ctor args) hI hp
        | none =>
            cases ho : oracle w.nAllocs with
            | none =>
                exfalso
                apply hok
                rw [hp]
                dsimp only
                rw [ho]
            | some a => exact inv_slot_new (ctor args) hor hI hp ho

/-- One client step preserves the invariant. -/
theorem inv_step {V : Type} {oracle : Nat → Option Nat}
    (hor : OracleFresh oracle) {w w1 : MemoryPool V} {op : Op V}
    (h : step oracle w op = some w1) (hI : Inv oracle w) : Inv oracle w1 := by
  cases op with
  | alloc T v =>
      simp only [step] at h
      split at h
      · next ptr hout =>
        injection h with h
        subst h
        apply inv_Allocate T id v hor hI
        rw [hout]
        intro hc
        exact AllocOutcome.noConfusion hc
      · exact Option.noConfusion h
  | dealloc ptr =>
      simp only [step] at h
      split at h
      · next hvp =>
        injection h with h
        subst h
        exact inv_Deallocate hI hvp
      · exact Option.noConfusion h

/-- Running any sequence of client operations preserves the invariant. -/
theorem run_inv {V : Type} {oracle : Nat → Option Nat}
    (hor : OracleFresh oracle) :
    ∀ (ops : List (Op V)) (w w1 : MemoryPool V),
      run oracle w ops = some w1 → Inv oracle w → Inv oracle w1 := by
  intro ops
  induction ops with
  | nil =>
      intro w w1 h hI
      simp only [run] at h
      injection h with h
      subst h
      exact hI
  | cons op ops ih =>
      intro w w1 h hI
      simp only [run] at h
      cases hstep : step oracle w op with
      | none =>
          rw [hstep] at h
          exact Option.noConfusion h
      | some w2 =>
          rw [hstep] at h
          dsimp only at h
          exact ih w2 w1 h (inv_step hor hstep hI)

/-- C3: after every valid sequence of client operations on a freshly
constructed pool (with a well-behaved raw allocator), occupancy bit `i`
is set iff slot `i`'s payload holds a constructed-but-not-destructed
object; moreover every `Allocate` that claims a slot sets exactly the
claimed bit and constructs the object at the returned address, and
every slot-case `Deallocate` destructs the object and clears exactly
that slot's bit. -/
theorem occupancy_invariant {V : Type} (oracle : Nat → Option Nat) (ps : Nat)
    (ops : List (Op V)) (w : MemoryPool V)
    (hfresh : OracleFresh oracle)
    (hrun : run oracle (mkPool V ps) ops = some w) :
    (∀ i : Fin 64, w.bits_.testBit i.val = true ↔
      ∃ p, w.pages_ i = some p ∧ (w.obj p).isSome = true) ∧
    (∀ (T : TypeInfo) (v : V) (i : Fin 64) (ptr : Nat),
      (Allocate T id v oracle w).path = Path.slot i →
      (Allocate T id v oracle w).out = AllocOutcome.ok ptr →
      (∀ j : Nat, (Allocate T id v oracle w).pool.bits_.testBit j
          = (w.bits_.testBit j || decide (i.val = j))) ∧
      (Allocate T id v oracle w).pool.obj ptr = some v) ∧
    (∀ (ptr b : Nat), w.hdr (ptr - 1) = some b → b ≠ extendFlag_ → b < 64 →
      (∀ j : Nat, (Deallocate w ptr).pool.bits_.testBit j
          = (w.bits_.testBit j && ! decide (b = j))) ∧
      (Deallocate w ptr).pool.obj ptr = none) := by
  have hI : Inv oracle w := run_inv hfresh ops _ w hrun (inv_mkPool oracle ps)
  refine ⟨hI.occ_iff, ?_, ?_⟩
  · intro T v i ptr hpath hout
    by_cases hsz : w.pageSize_ < T.size
    · unfold Allocate at hpath
      rw [if_pos hsz, AllocateExtend_path] at hpath
      exact Path.noConfusion hpath
    · cases hscan : scanBits w.bits_ with
      | none =>
          unfold Allocate at hpath
          rw [if_neg hsz, hscan] at hpath
          dsimp only at hpath
          rw [AllocateExtend_path] at hpath
          exact Path.noConfusion hpath
      | some i' =>
          rw [Allocate_path_slot hsz hscan] at hpath
          injection hpath with hii
          subst hii
          unfold Allocate at hout ⊢
          rw [if_neg hsz, hscan] at hout ⊢
          dsimp only at hout ⊢
          cases hp : w.pages_ i' with
          | some p =>
              rw [hp] at hout
              dsimp only at hout
              injection hout with hout
              subst hout
              constructor
              · intro j
                dsimp only
                exact testBit_setBit w.bits_ i'.val j
              · simp
          | none =>
              rw [hp] at hout
              dsimp only at hout
              cases ho : oracle w.nAllocs with
              | none =>
                  rw [ho] at hout
                  exact AllocOutcome.noConfusion hout
              | some a =>
                  rw [ho] at hout
                  dsimp only at hout
                  injection hout with hout
                  subst hout
                  constructor
                  · intro j
                    dsimp only
                    exact testBit_setBit w.bits_ i'.val j
                  · simp
  · intro ptr b hh hbe hb64
    unfold Deallocate
    rw [hh]
    dsimp only
    rw [if_neg hbe]
    constructor
    · intro j
      dsimp only
      by_cases hj : j < 64
      · rw [testBit_clearBit]
        simp [hj]
      · have h0 : w.bits_.testBit j = false :=
          testBit_ge_64 hI.bits_lt (le_of_not_lt hj)
        rw [testBit_clearBit, h0]
        simp
    · simp

/-- Freshness of the witness allocator: call `k` returns the non-null
address `k + 1`, injectively. -/
theorem orW_fresh : OracleFresh orW := by
  constructor
  · intro k a h
    injection h with h
    omega
  · intro j k a hj hk
    injection hj with hj
    injection hk with hk
    omega

/-- Witness for C3: after running one allocation from a fresh pool,
occupancy bit 0 is set and slot 0 holds a live object. -/
theorem occupancy_invariant_witness :
    (Allocate ⟨8, 8⟩ (id : Nat → Nat) 42 orW (mkPool Nat 512)).pool.bits_.testBit 0
        = true ↔
      ∃ p, (Allocate ⟨8, 8⟩ (id : Nat → Nat) 42 orW
          (mkPool Nat 512)).pool.pages_ 0 = some p ∧
        ((Allocate ⟨8, 8⟩ (id : Nat → Nat) 42 orW
          (mkPool Nat 512)).pool.obj p).isSome = true :=
  (occupancy_invariant orW 512 [Op.alloc ⟨8, 8⟩ 42]
      (Allocate ⟨8, 8⟩ id 42 orW (mkPool Nat 512)).pool orW_fresh rfl).1 0

end MemPool
